import Mathlib

/-!
Verification of the quantum-eigen repository (src/eigen.py) against its
natural-language specification.

The two functions of the source file, `build_2d_hamiltonian` and
`solve_eigen`, are shallowly embedded below.  Python floats are modelled as
exact rationals (ℚ); the in-place numpy array writes of the builder are
modelled by explicit state passing (a fold of single-entry writes over the
loop ranges); Python's `int` is modelled as ℤ.  The one failure path of the
source — `dx = 1. / float(N)` raising ZeroDivisionError when `N = 0` — is
modelled by returning `Option`.
-/

namespace Eigen

/-- A dense square matrix as numpy's `np.zeros((d, d))` produces it: a
dimension together with an entry function (entries outside the shape are
irrelevant and held at 0). -/
structure Mat where
  dim : ℕ
  entry : ℕ → ℕ → ℚ

/-- A single in-place array write `H[r, c] = v`, as state passing. -/
def writeEntry (H : ℕ → ℕ → ℚ) (r c : ℕ) (v : ℚ) : ℕ → ℕ → ℚ :=
  fun r' c' => if r' = r ∧ c' = c then v else H r' c'

/-- Source: `def idx(i, j): return i * N + j` — the (i, j) → linear index
map of the builder (row-major). -/
def idx (n i j : ℕ) : ℕ := i * n + j

/-- Source: the inner helper `V(i, j)` of `build_2d_hamiltonian`:
zero for "well", `4 * (x**2 + y**2)` with `x = (i - N/2) * dx`,
`y = (j - N/2) * dx` for "harmonic", and zero for any other kind string
(the permissive `else` fallback). -/
def V (N : ℤ) (dx : ℚ) (potential : String) (i j : ℕ) : ℚ :=
  if potential = "well" then 0
  else if potential = "harmonic" then
    let x : ℚ := ((i : ℚ) - (N : ℚ) / 2) * dx
    let y : ℚ := ((j : ℚ) - (N : ℚ) / 2) * dx
    4 * (x ^ 2 + y ^ 2)
  else 0

/-- Source: the body of the double loop of `build_2d_hamiltonian` for one
grid point `(i, j)`: set the diagonal entry, then conditionally the four
neighbor entries (`i > 0`, `i < N-1`, `j > 0`, `j < N-1`). -/
def loopBody (N : ℤ) (dx inv_dx2 : ℚ) (potential : String) (i j : ℕ)
    (H : ℕ → ℕ → ℚ) : ℕ → ℕ → ℚ :=
  let row := idx N.toNat i j
  let H1 := writeEntry H row row (-4 * inv_dx2 + V N dx potential i j)
  let H2 := if 0 < i then writeEntry H1 row (idx N.toNat (i - 1) j) inv_dx2 else H1
  let H3 := if (i : ℤ) < N - 1 then writeEntry H2 row (idx N.toNat (i + 1) j) inv_dx2 else H2
  let H4 := if 0 < j then writeEntry H3 row (idx N.toNat i (j - 1)) inv_dx2 else H3
  if (j : ℤ) < N - 1 then writeEntry H4 row (idx N.toNat i (j + 1)) inv_dx2 else H4

/-- Source: the inner loop `for j in range(N)` of `build_2d_hamiltonian`
(Python's `range(N)` is empty for non-positive `N`, hence `N.toNat`). -/
def innerLoop (N : ℤ) (dx inv_dx2 : ℚ) (potential : String) (i : ℕ)
    (H : ℕ → ℕ → ℚ) : ℕ → ℕ → ℚ :=
  (List.range N.toNat).foldl (fun acc j => loopBody N dx inv_dx2 potential i j acc) H

/-- Source: `build_2d_hamiltonian(N, potential)`.  `dx = 1. / float(N)` is
computed first and raises ZeroDivisionError for `N = 0` (modelled as
`none`); otherwise `inv_dx2 = float(N * N)`, `H = np.zeros((N*N, N*N))`,
and the double loop fills the five-point stencil. -/
def build_2d_hamiltonian (N : ℤ) (potential : String) : Option Mat :=
  if N = 0 then none
  else
    let dx : ℚ := 1 / (N : ℚ)
    let inv_dx2 : ℚ := ((N * N : ℤ) : ℚ)
    some ⟨(N * N).toNat,
      (List.range N.toNat).foldl
        (fun acc i => innerLoop N dx inv_dx2 potential i acc) (fun _ _ => 0)⟩

/-- Entry accessor for the matrix returned by the builder (0 if the builder
failed); a convenience projection for stating theorems. -/
def mEntry (N : ℤ) (potential : String) (r c : ℕ) : ℚ :=
  match build_2d_hamiltonian N potential with
  | some H => H.entry r c
  | none => 0

/-- Modelled from the spec: `np.argsort(vals)` — the external numpy
routine returning a permutation of `0 .. vals.length - 1` that puts `vals`
in ascending order.  Numpy leaves the order of ties unspecified; a stable
merge sort is used here, and no claim depends on the tie order. -/
def argsort (vals : List ℚ) : List ℕ :=
  (List.range vals.length).mergeSort (fun a b => decide (vals.getD a 0 ≤ vals.getD b 0))

/-- Source: `vals_sorted = vals[idx_sorted]` in `solve_eigen`. -/
def vals_sorted (vals : List ℚ) : List ℚ :=
  (argsort vals).map (fun a => vals.getD a 0)

/-- Source: `vecs_sorted = vecs[:, idx_sorted]` in `solve_eigen`; the
eigenvector matrix is represented by its list of columns, so selecting
columns by `idx_sorted` is a map over the index list. -/
def vecs_sorted (vals : List ℚ) (vecs : List (List ℚ)) : List (List ℚ) :=
  (argsort vals).map (fun a => vecs.getD a [])

/-- Source: `solve_eigen(N, potential, n_eigs)`.  The call
`scipy.linalg.eigh(H)` is an external dense symmetric eigensolver treated
by the spec as a black-box delegate; its output (the eigenvalue array and
the matrix of eigenvector columns) is therefore passed in as the
parameters `eigh_vals`, `eigh_vecs`, quantified over in every theorem.
The wrapper sorts by `np.argsort(vals)` and, when `n_eigs` is given,
truncates with numpy slice semantics `[:n_eigs]` (silent truncation),
modelled by `List.take`. -/
def solve_eigen (N : ℤ) (potential : String) (n_eigs : Option ℕ)
    (eigh_vals : List ℚ) (eigh_vecs : List (List ℚ)) :
    Option (List ℚ × List (List ℚ)) :=
  match build_2d_hamiltonian N potential with
  | none => none
  | some _H =>
    match n_eigs with
    | none => some (vals_sorted eigh_vals, vecs_sorted eigh_vals eigh_vecs)
    | some m => some ((vals_sorted eigh_vals).take m,
                      (vecs_sorted eigh_vals eigh_vecs).take m)

/-- The grid-neighbor relation on linear indices, stated the way the spec
phrases it: the two grid points `(r / n, r % n)` and `(c / n, c % n)`
differ by exactly one in exactly one coordinate. -/
def isNeighbor (n r c : ℕ) : Prop :=
  (r / n = c / n ∧ (c % n = r % n + 1 ∨ r % n = c % n + 1)) ∨
  (r % n = c % n ∧ (c / n = r / n + 1 ∨ r / n = c / n + 1))

instance (n r c : ℕ) : Decidable (isNeighbor n r c) := by
  unfold isNeighbor; infer_instance

/-- Number of in-bounds axis-aligned grid neighbors of the grid point of
linear index `r` on the n × n grid. -/
def neighborCount (n r : ℕ) : ℕ :=
  (if 0 < r / n then 1 else 0) + (if r / n + 1 < n then 1 else 0) +
  (if 0 < r % n then 1 else 0) + (if r % n + 1 < n then 1 else 0)

/-! ### Basic facts about writes and the index map -/

theorem writeEntry_same (H : ℕ → ℕ → ℚ) (r c : ℕ) (v : ℚ) :
    writeEntry H r c v r c = v := by
  simp [writeEntry]

theorem writeEntry_row (H : ℕ → ℕ → ℚ) (r c : ℕ) (v : ℚ) (c' : ℕ) :
    writeEntry H r c v r c' = if c' = c then v else H r c' := by
  simp [writeEntry]

theorem writeEntry_ne (H : ℕ → ℕ → ℚ) (r c : ℕ) (v : ℚ) {r' c' : ℕ}
    (h : r' ≠ r ∨ c' ≠ c) : writeEntry H r c v r' c' = H r' c' := by
  simp only [writeEntry]
  rw [if_neg]
  tauto

theorem idx_div {n j : ℕ} (i : ℕ) (hj : j < n) : idx n i j / n = i := by
  unfold idx
  rw [Nat.mul_comm, Nat.mul_add_div (by omega), Nat.div_eq_of_lt hj, Nat.add_zero]

theorem idx_mod {n j : ℕ} (i : ℕ) (hj : j < n) : idx n i j % n = j := by
  unfold idx
  rw [Nat.mul_comm, Nat.mul_add_mod, Nat.mod_eq_of_lt hj]

theorem idx_lt {n i j : ℕ} (hi : i < n) (hj : j < n) : idx n i j < n * n :=
  calc i * n + j < i * n + n := by omega
    _ = (i + 1) * n := by ring
    _ ≤ n * n := Nat.mul_le_mul_right n hi

theorem idx_inj {n i j i' j' : ℕ} (hj : j < n) (hj' : j' < n)
    (h : idx n i j = idx n i' j') : i = i' ∧ j = j' := by
  constructor
  · rw [← idx_div i hj, ← idx_div i' hj', h]
  · rw [← idx_mod i hj, ← idx_mod i' hj', h]

theorem idx_self (n r : ℕ) : idx n (r / n) (r % n) = r := by
  unfold idx
  rw [Nat.mul_comm]
  exact Nat.div_add_mod r n

/-! ### Frame lemmas: a loop iteration writes only to its own row -/

theorem loopBody_frame {N : ℤ} {dx k : ℚ} {p : String} {i j : ℕ}
    {H : ℕ → ℕ → ℚ} {r c : ℕ} (h : r ≠ idx N.toNat i j) :
    loopBody N dx k p i j H r c = H r c := by
  simp only [loopBody]
  split_ifs <;> simp [writeEntry, h]

theorem foldl_inner_frame {N : ℤ} {dx k : ℚ} {p : String} {i : ℕ}
    (js : List ℕ) {H : ℕ → ℕ → ℚ} {r c : ℕ}
    (h : ∀ j ∈ js, r ≠ idx N.toNat i j) :
    (js.foldl (fun acc j => loopBody N dx k p i j acc) H) r c = H r c := by
  induction js generalizing H with
  | nil => rfl
  | cons a t ih =>
    simp only [List.foldl_cons]
    rw [ih (fun j hj => h j (List.mem_cons_of_mem a hj)),
      loopBody_frame (h a (List.mem_cons_self a t))]

theorem foldl_outer_frame {N : ℤ} {dx k : ℚ} {p : String}
    (is : List ℕ) {H : ℕ → ℕ → ℚ} {r c : ℕ}
    (h : ∀ i ∈ is, ∀ j, j < N.toNat → r ≠ idx N.toNat i j) :
    (is.foldl (fun acc i => innerLoop N dx k p i acc) H) r c = H r c := by
  induction is generalizing H with
  | nil => rfl
  | cons a t ih =>
    simp only [List.foldl_cons]
    rw [ih (fun i hi => h i (List.mem_cons_of_mem a hi))]
    unfold innerLoop
    exact foldl_inner_frame _ (fun j hj =>
      h a (List.mem_cons_self a _) j (List.mem_range.mp hj))

theorem loopBody_congr_at {N : ℤ} {dx k : ℚ} {p : String} {i j : ℕ}
    {H H' : ℕ → ℕ → ℚ} {r c : ℕ} (h : H r c = H' r c) :
    loopBody N dx k p i j H r c = loopBody N dx k p i j H' r c := by
  simp only [loopBody]
  split_ifs <;> simp [writeEntry, h]

/-- One pass of the inner loop, observed at the row of its own grid point
`(i, j)`: only the iteration `j` contributes, and it starts from a state
that holds 0 at the observed position. -/
theorem innerLoop_extract {N : ℤ} (dx k : ℚ) (p : String) {i j : ℕ}
    (hj : j < N.toNat) {H : ℕ → ℕ → ℚ} {c : ℕ}
    (hzero : H (idx N.toNat i j) c = 0) :
    innerLoop N dx k p i H (idx N.toNat i j) c
      = loopBody N dx k p i j (fun _ _ => 0) (idx N.toNat i j) c := by
  have inner_ne : ∀ j' : ℕ, j' < N.toNat → j' ≠ j →
      idx N.toNat i j ≠ idx N.toNat i j' := by
    intro j' hj' hne heq
    exact hne ((idx_inj hj hj' heq).2.symm)
  have hsplit : List.range N.toNat =
      (List.range j ++ [j]) ++
        (List.map (fun x => (j + 1) + x) (List.range (N.toNat - (j + 1)))) := by
    rw [← List.range_succ, ← List.range_add]
    congr 1
    omega
  unfold innerLoop
  rw [hsplit, List.foldl_append, List.foldl_append]
  simp only [List.foldl_cons, List.foldl_nil]
  rw [foldl_inner_frame (List.map (fun x => (j + 1) + x) (List.range (N.toNat - (j + 1))))
    (by
      intro j' hj'
      simp only [List.mem_map, List.mem_range] at hj'
      obtain ⟨x, hx, rfl⟩ := hj'
      exact inner_ne _ (by omega) (by omega))]
  apply loopBody_congr_at
  rw [foldl_inner_frame (List.range j)
    (by
      intro j' hj'
      simp only [List.mem_range] at hj'
      exact inner_ne _ (by omega) (by omega))]
  exact hzero

/-- The rows written by distinct loop iterations are distinct, so the full
double loop agrees, on the row of grid point `(i, j)`, with the single
iteration for `(i, j)` started from the all-zero state. -/
theorem build_fold_extract {N : ℤ} (dx k : ℚ) (p : String) {i j : ℕ}
    (hi : i < N.toNat) (hj : j < N.toNat) (c : ℕ) :
    ((List.range N.toNat).foldl (fun acc i' => innerLoop N dx k p i' acc)
        (fun _ _ => 0)) (idx N.toNat i j) c
      = loopBody N dx k p i j (fun _ _ => 0) (idx N.toNat i j) c := by
  have outer_ne : ∀ i' : ℕ, i' ≠ i → ∀ j' : ℕ, j' < N.toNat →
      idx N.toNat i j ≠ idx N.toNat i' j' := by
    intro i' hne j' hj' heq
    exact hne ((idx_inj hj hj' heq).1.symm)
  have hsplit : List.range N.toNat =
      (List.range i ++ [i]) ++
        (List.map (fun x => (i + 1) + x) (List.range (N.toNat - (i + 1)))) := by
    rw [← List.range_succ, ← List.range_add]
    congr 1
    omega
  rw [hsplit, List.foldl_append, List.foldl_append]
  simp only [List.foldl_cons, List.foldl_nil]
  rw [foldl_outer_frame (List.map (fun x => (i + 1) + x) (List.range (N.toNat - (i + 1))))
    (by
      intro i' hi' j' hj'
      simp only [List.mem_map, List.mem_range] at hi'
      obtain ⟨x, _, rfl⟩ := hi'
      exact outer_ne _ (by omega) j' hj')]
  exact innerLoop_extract dx k p hj
    (by
      rw [foldl_outer_frame (List.range i)
        (by
          intro i' hi' j' hj'
          simp only [List.mem_range] at hi'
          exact outer_ne _ (by omega) j' hj')])

set_option maxHeartbeats 2000000 in
/-- Value of one loop iteration on its own row, started from zero: the
diagonal gets `-4 * inv_dx2 + V(i, j)`, each in-bounds neighbor column gets
`inv_dx2`, and every other column stays 0. -/
theorem loopBody_zero {N : ℤ} (hN : 1 ≤ N) (dx k : ℚ) (p : String) {i j : ℕ}
    (hi : i < N.toNat) (hj : j < N.toNat) (c : ℕ) :
    loopBody N dx k p i j (fun _ _ => 0) (idx N.toNat i j) c =
      if c = idx N.toNat i j then -4 * k + V N dx p i j
      else if 0 < i ∧ c = idx N.toNat (i - 1) j then k
      else if i + 1 < N.toNat ∧ c = idx N.toNat (i + 1) j then k
      else if 0 < j ∧ c = idx N.toNat i (j - 1) then k
      else if j + 1 < N.toNat ∧ c = idx N.toNat i (j + 1) then k
      else 0 := by
  have hg1 : ((i : ℤ) < N - 1) ↔ i + 1 < N.toNat := by omega
  have hg2 : ((j : ℤ) < N - 1) ↔ j + 1 < N.toNat := by omega
  have f1 : 0 < i → idx N.toNat (i - 1) j ≠ idx N.toNat i j := by
    intro h heq
    obtain ⟨h1, -⟩ := idx_inj hj hj heq
    omega
  have f2 : i + 1 < N.toNat → idx N.toNat (i + 1) j ≠ idx N.toNat i j := by
    intro h heq
    obtain ⟨h1, -⟩ := idx_inj hj hj heq
    omega
  have f3 : 0 < i → idx N.toNat (i + 1) j ≠ idx N.toNat (i - 1) j := by
    intro h heq
    obtain ⟨h1, -⟩ := idx_inj hj hj heq
    omega
  have f4 : 0 < j → idx N.toNat i (j - 1) ≠ idx N.toNat i j := by
    intro h heq
    obtain ⟨-, h2⟩ := idx_inj (by omega : j - 1 < N.toNat) hj heq
    omega
  have f5 : 0 < i → idx N.toNat i (j - 1) ≠ idx N.toNat (i - 1) j := by
    intro h heq
    obtain ⟨h1, -⟩ := idx_inj (by omega : j - 1 < N.toNat) hj heq
    omega
  have f6 : idx N.toNat i (j - 1) ≠ idx N.toNat (i + 1) j := by
    intro heq
    obtain ⟨h1, -⟩ := idx_inj (by omega : j - 1 < N.toNat) hj heq
    omega
  have f7 : j + 1 < N.toNat → idx N.toNat i (j + 1) ≠ idx N.toNat i j := by
    intro h heq
    obtain ⟨-, h2⟩ := idx_inj (by omega : j + 1 < N.toNat) hj heq
    omega
  have f8 : j + 1 < N.toNat → 0 < i → idx N.toNat i (j + 1) ≠ idx N.toNat (i - 1) j := by
    intro h h' heq
    obtain ⟨h1, -⟩ := idx_inj (by omega : j + 1 < N.toNat) hj heq
    omega
  have f9 : j + 1 < N.toNat → idx N.toNat i (j + 1) ≠ idx N.toNat (i + 1) j := by
    intro h heq
    obtain ⟨h1, -⟩ := idx_inj (by omega : j + 1 < N.toNat) hj heq
    omega
  have f10 : j + 1 < N.toNat → 0 < j → idx N.toNat i (j + 1) ≠ idx N.toNat i (j - 1) := by
    intro h h' heq
    obtain ⟨-, h2⟩ := idx_inj (by omega : j + 1 < N.toNat) (by omega : j - 1 < N.toNat) heq
    omega
  simp only [loopBody, ite_apply, writeEntry_row, hg1, hg2]
  by_cases h1 : 0 < i <;> by_cases h2 : i + 1 < N.toNat <;>
    by_cases h3 : 0 < j <;> by_cases h4 : j + 1 < N.toNat <;>
    simp only [h1, h2, h3, h4, true_and, false_and, if_true, if_false,
      ite_true, ite_false] <;>
    split_ifs <;> first | rfl | simp_all

/-- Closed form of the matrix built by `build_2d_hamiltonian` for `N ≥ 1`
(derived below, not part of the embedding): row `r` of the grid point
`(r / n, r % n)` holds the diagonal value at column `r`, `1/dx²` at each
in-bounds neighbor column, and 0 elsewhere. -/
def Hclosed (n : ℕ) (p : String) (r c : ℕ) : ℚ :=
  if r < n * n then
    if c = r then -4 * ((n : ℚ) * n) + V n (1 / (n : ℚ)) p (r / n) (r % n)
    else if 0 < r / n ∧ c = idx n (r / n - 1) (r % n) then (n : ℚ) * n
    else if r / n + 1 < n ∧ c = idx n (r / n + 1) (r % n) then (n : ℚ) * n
    else if 0 < r % n ∧ c = idx n (r / n) (r % n - 1) then (n : ℚ) * n
    else if r % n + 1 < n ∧ c = idx n (r / n) (r % n + 1) then (n : ℚ) * n
    else 0
  else 0

theorem mEntry_fold {N : ℤ} (hN0 : N ≠ 0) (p : String) (r c : ℕ) :
    mEntry N p r c =
      ((List.range N.toNat).foldl
        (fun acc i => innerLoop N (1 / (N : ℚ)) ((N * N : ℤ) : ℚ) p i acc)
        (fun _ _ => 0)) r c := by
  simp only [mEntry, build_2d_hamiltonian, if_neg hN0]

theorem entry_idx_eq {N : ℤ} (hN : 1 ≤ N) (p : String) {i j : ℕ}
    (hi : i < N.toNat) (hj : j < N.toNat) (c : ℕ) :
    mEntry N p (idx N.toNat i j) c =
      if c = idx N.toNat i j then -4 * ((N * N : ℤ) : ℚ) + V N (1 / (N : ℚ)) p i j
      else if 0 < i ∧ c = idx N.toNat (i - 1) j then ((N * N : ℤ) : ℚ)
      else if i + 1 < N.toNat ∧ c = idx N.toNat (i + 1) j then ((N * N : ℤ) : ℚ)
      else if 0 < j ∧ c = idx N.toNat i (j - 1) then ((N * N : ℤ) : ℚ)
      else if j + 1 < N.toNat ∧ c = idx N.toNat i (j + 1) then ((N * N : ℤ) : ℚ)
      else 0 := by
  rw [mEntry_fold (by omega), build_fold_extract _ _ _ hi hj,
    loopBody_zero hN _ _ _ hi hj]

/-- For `N ≥ 1` the matrix produced by the builder is exactly the closed
five-point-stencil form `Hclosed`. -/
theorem entry_eq_Hclosed {N : ℤ} (hN : 1 ≤ N) (p : String) (r c : ℕ) :
    mEntry N p r c = Hclosed N.toNat p r c := by
  have hNn : ((N.toNat : ℤ)) = N := Int.toNat_of_nonneg (by omega)
  have hq : ((N.toNat : ℚ)) = ((N : ℚ)) := by
    exact_mod_cast hNn
  by_cases hr : r < N.toNat * N.toNat
  · have hn0 : 0 < N.toNat := by omega
    have hi : r / N.toNat < N.toNat := (Nat.div_lt_iff_lt_mul hn0).mpr hr
    have hj : r % N.toNat < N.toNat := Nat.mod_lt _ hn0
    have hidx : idx N.toNat (r / N.toNat) (r % N.toNat) = r := idx_self _ _
    have h := entry_idx_eq hN p hi hj c
    rw [hidx] at h
    rw [h]
    unfold Hclosed
    rw [if_pos hr, hNn, hq]
    split_ifs <;> (push_cast; ring)
  · rw [mEntry_fold (by omega)]
    rw [foldl_outer_frame (List.range N.toNat)
      (by
        intro i hi' j hj' heq
        exact hr (by rw [heq]; exact idx_lt (List.mem_range.mp hi') hj'))]
    unfold Hclosed
    rw [if_neg hr]

theorem Hclosed_diag {n : ℕ} (p : String) {i j : ℕ} (hi : i < n) (hj : j < n) :
    Hclosed n p (idx n i j) (idx n i j) =
      -4 * ((n : ℚ) * n) + V n (1 / (n : ℚ)) p i j := by
  unfold Hclosed
  rw [if_pos (idx_lt hi hj), if_pos rfl, idx_div _ hj, idx_mod _ hj]

theorem neighbor_iff {n r c : ℕ} (hr : r < n * n) (hc : c < n * n) :
    isNeighbor n r c ↔
      ((0 < r / n ∧ c = idx n (r / n - 1) (r % n)) ∨
       (r / n + 1 < n ∧ c = idx n (r / n + 1) (r % n)) ∨
       (0 < r % n ∧ c = idx n (r / n) (r % n - 1)) ∨
       (r % n + 1 < n ∧ c = idx n (r / n) (r % n + 1))) := by
  have hn0 : 0 < n := by
    rcases Nat.eq_zero_or_pos n with h | h
    · subst h
      omega
    · exact h
  have hdc : c / n < n := (Nat.div_lt_iff_lt_mul hn0).mpr hc
  have hmc : c % n < n := Nat.mod_lt _ hn0
  have hmr : r % n < n := Nat.mod_lt _ hn0
  have hcs : idx n (c / n) (c % n) = c := idx_self n c
  constructor
  · rintro (⟨h1, h2 | h2⟩ | ⟨h1, h2 | h2⟩)
    · refine Or.inr (Or.inr (Or.inr ⟨by omega, ?_⟩))
      rw [h1, ← h2]
      exact hcs.symm
    · refine Or.inr (Or.inr (Or.inl ⟨by omega, ?_⟩))
      rw [h1, show r % n - 1 = c % n by omega]
      exact hcs.symm
    · refine Or.inr (Or.inl ⟨by omega, ?_⟩)
      rw [show r / n + 1 = c / n from h2.symm, h1]
      exact hcs.symm
    · refine Or.inl ⟨by rw [h2]; exact Nat.succ_pos _, ?_⟩
      rw [show r / n - 1 = c / n by rw [h2, Nat.add_sub_cancel], h1]
      exact hcs.symm
  · rintro (⟨h1, h2⟩ | ⟨h1, h2⟩ | ⟨h1, h2⟩ | ⟨h1, h2⟩)
    · exact Or.inr ⟨by rw [h2, idx_mod _ hmr], Or.inr (by rw [h2, idx_div _ hmr]; omega)⟩
    · exact Or.inr ⟨by rw [h2, idx_mod _ hmr], Or.inl (by rw [h2, idx_div _ hmr])⟩
    · exact Or.inl ⟨by rw [h2, idx_div _ (by omega : r % n - 1 < n)],
        Or.inr (by rw [h2, idx_mod _ (by omega : r % n - 1 < n)]; omega)⟩
    · exact Or.inl ⟨by rw [h2, idx_div _ h1],
        Or.inl (by rw [h2, idx_mod _ h1])⟩

theorem Hclosed_offdiag {n : ℕ} {p : String} {r c : ℕ} (hr : r < n * n)
    (hc : c < n * n) (hne : c ≠ r) :
    Hclosed n p r c = if isNeighbor n r c then (n : ℚ) * n else 0 := by
  unfold Hclosed
  rw [if_pos hr, if_neg hne]
  simp only [neighbor_iff hr hc]
  split_ifs <;> first | rfl | tauto

theorem isNeighbor_symm {n r c : ℕ} : isNeighbor n r c ↔ isNeighbor n c r := by
  unfold isNeighbor
  constructor <;> rintro (⟨h1, h2 | h2⟩ | ⟨h1, h2 | h2⟩) <;>
    first
      | exact Or.inl ⟨h1.symm, Or.inr h2⟩
      | exact Or.inl ⟨h1.symm, Or.inl h2⟩
      | exact Or.inr ⟨h1.symm, Or.inr h2⟩
      | exact Or.inr ⟨h1.symm, Or.inl h2⟩

theorem build_isSome (N : ℕ) (hN : 1 ≤ N) (p : String) :
    (build_2d_hamiltonian (N : ℤ) p).isSome = true := by
  have h0 : ((N : ℤ)) ≠ 0 := by omega
  simp [build_2d_hamiltonian, h0]

/-! ### Claims C1 to C3: entries of the built matrix -/

/-- C1: for every N ≥ 1, the diagonal entry of the matrix returned by
`build_2d_hamiltonian` at the row of grid point `(i, j)` (linear index
`i*N + j`) equals `-4*N² + V(i, j)`, where `V(i, j) = 0` for kind "well"
and `V(i, j) = 4*((i - N/2)*dx)² + 4*((j - N/2)*dx)²` with `dx = 1/N` for
kind "harmonic". -/
theorem C1_diagonal_entries (N : ℕ) (hN : 1 ≤ N) (i j : ℕ) (hi : i < N) (hj : j < N) :
    mEntry (N : ℤ) "well" (i * N + j) (i * N + j) = -4 * (N : ℚ) ^ 2 ∧
    mEntry (N : ℤ) "harmonic" (i * N + j) (i * N + j) =
      -4 * (N : ℚ) ^ 2 + (4 * (((i : ℚ) - (N : ℚ) / 2) * (1 / (N : ℚ))) ^ 2
        + 4 * (((j : ℚ) - (N : ℚ) / 2) * (1 / (N : ℚ))) ^ 2) := by
  have hNZ : (1 : ℤ) ≤ (N : ℤ) := by exact_mod_cast hN
  have hw := entry_eq_Hclosed hNZ "well" (i * N + j) (i * N + j)
  have hh := entry_eq_Hclosed hNZ "harmonic" (i * N + j) (i * N + j)
  rw [Int.toNat_natCast] at hw hh
  have he : i * N + j = idx N i j := rfl
  constructor
  · rw [hw, he, Hclosed_diag _ hi hj]
    simp only [V, if_pos rfl]
    push_cast
    ring
  · rw [hh, he, Hclosed_diag _ hi hj]
    simp only [V]
    norm_num
    push_cast
    ring

/-- Witness for C1 at N = 2, i = 1, j = 0. -/
theorem C1_diagonal_entries_witness :
    (1 ≤ 2 ∧ 1 < 2 ∧ 0 < 2) ∧
    (mEntry ((2 : ℕ) : ℤ) "well" (1 * 2 + 0) (1 * 2 + 0) = -4 * ((2 : ℕ) : ℚ) ^ 2 ∧
     mEntry ((2 : ℕ) : ℤ) "harmonic" (1 * 2 + 0) (1 * 2 + 0) =
       -4 * ((2 : ℕ) : ℚ) ^ 2 + (4 * ((((1 : ℕ) : ℚ)) - ((2 : ℕ) : ℚ) / 2) ^ 2 * (1 / ((2 : ℕ) : ℚ)) ^ 2
         + 4 * ((((0 : ℕ) : ℚ)) - ((2 : ℕ) : ℚ) / 2) ^ 2 * (1 / ((2 : ℕ) : ℚ)) ^ 2)) :=
  ⟨⟨by decide, by decide, by decide⟩, by
    have h := C1_diagonal_entries 2 (by decide) 1 0 (by decide) (by decide)
    refine ⟨h.1, ?_⟩
    rw [h.2]
    ring⟩

/-- C2: for every N ≥ 1 and every potential kind, each off-diagonal entry of
the returned matrix equals `N²` when the column is the linear index of an
in-bounds axis-aligned grid neighbor of the row's grid point, and 0
otherwise (no wraparound coupling). -/
theorem C2_offdiagonal_entries (N : ℕ) (hN : 1 ≤ N) (p : String) (r c : ℕ)
    (hr : r < N * N) (hc : c < N * N) (hne : c ≠ r) :
    mEntry (N : ℤ) p r c = if isNeighbor N r c then (N : ℚ) ^ 2 else 0 := by
  have hNZ : (1 : ℤ) ≤ (N : ℤ) := by exact_mod_cast hN
  have h := entry_eq_Hclosed hNZ p r c
  rw [Int.toNat_natCast] at h
  rw [h, Hclosed_offdiag hr hc hne]
  split_ifs <;> ring

/-- Witness for C2 at N = 2, kind "well", r = 0, c = 1 (a neighbor pair). -/
theorem C2_offdiagonal_entries_witness :
    (1 ≤ 2 ∧ 0 < 2 * 2 ∧ 1 < 2 * 2 ∧ (1 : ℕ) ≠ 0) ∧
    mEntry ((2 : ℕ) : ℤ) "well" 0 1 = if isNeighbor 2 0 1 then ((2 : ℕ) : ℚ) ^ 2 else 0 :=
  ⟨⟨by decide, by decide, by decide, by decide⟩,
    C2_offdiagonal_entries 2 (by decide) "well" 0 1 (by decide) (by decide) (by decide)⟩

/-- C3: for every N ≥ 1 and every potential kind string, the returned
N² × N² matrix exists and is symmetric: `H[r, c] = H[c, r]` for all index
pairs inside the shape. -/
theorem C3_symmetric (N : ℕ) (hN : 1 ≤ N) (p : String) (r c : ℕ)
    (hr : r < N * N) (hc : c < N * N) :
    (build_2d_hamiltonian (N : ℤ) p).isSome = true ∧
    mEntry (N : ℤ) p r c = mEntry (N : ℤ) p c r := by
  refine ⟨build_isSome N hN p, ?_⟩
  by_cases heq : c = r
  · rw [heq]
  · have hNZ : (1 : ℤ) ≤ (N : ℤ) := by exact_mod_cast hN
    have h1 := entry_eq_Hclosed hNZ p r c
    have h2 := entry_eq_Hclosed hNZ p c r
    rw [Int.toNat_natCast] at h1 h2
    rw [h1, h2, Hclosed_offdiag hr hc heq,
      Hclosed_offdiag hc hr (fun hh => heq hh.symm)]
    exact if_congr isNeighbor_symm rfl rfl

/-- Witness for C3 at N = 3, kind "harmonic", r = 1, c = 4. -/
theorem C3_symmetric_witness :
    (1 ≤ 3 ∧ 1 < 3 * 3 ∧ 4 < 3 * 3) ∧
    ((build_2d_hamiltonian ((3 : ℕ) : ℤ) "harmonic").isSome = true ∧
     mEntry ((3 : ℕ) : ℤ) "harmonic" 1 4 = mEntry ((3 : ℕ) : ℤ) "harmonic" 4 1) :=
  ⟨⟨by decide, by decide, by decide⟩,
    C3_symmetric 3 (by decide) "harmonic" 1 4 (by decide) (by decide)⟩

/-! ### Claims C6, C7, C10: validation, fallback potential, non-positive N -/

theorem V_unknown {N : ℤ} {dx : ℚ} {p : String} (h1 : p ≠ "well")
    (h2 : p ≠ "harmonic") (i j : ℕ) : V N dx p i j = V N dx "well" i j := by
  simp [V, h1, h2]

theorem loopBody_unknown {N : ℤ} {dx k : ℚ} {p : String} (h1 : p ≠ "well")
    (h2 : p ≠ "harmonic") (i j : ℕ) :
    loopBody N dx k p i j = loopBody N dx k "well" i j := by
  funext H
  simp only [loopBody, V_unknown h1 h2]

theorem build_unknown (N : ℤ) {p : String} (h1 : p ≠ "well")
    (h2 : p ≠ "harmonic") :
    build_2d_hamiltonian N p = build_2d_hamiltonian N "well" := by
  unfold build_2d_hamiltonian
  by_cases h0 : N = 0
  · simp [h0]
  · simp only [if_neg h0]
    have hb : (fun acc i => innerLoop N (1 / (N : ℚ)) ((N * N : ℤ) : ℚ) p i acc)
        = fun acc i => innerLoop N (1 / (N : ℚ)) ((N * N : ℤ) : ℚ) "well" i acc := by
      funext acc i
      unfold innerLoop
      have hc : (fun acc' j => loopBody N (1 / (N : ℚ)) ((N * N : ℤ) : ℚ) p i j acc')
          = fun acc' j => loopBody N (1 / (N : ℚ)) ((N * N : ℤ) : ℚ) "well" i j acc' := by
        funext acc' j
        rw [loopBody_unknown h1 h2]
      rw [hc]
    rw [hb]

/-- C7: for every N ≥ 1 and every potential kind string other than "well"
and "harmonic", the builder does not fail and returns a matrix identical to
`build_2d_hamiltonian(N, "well")` — the unknown kind falls back to the zero
potential. -/
theorem C7_unknown_kind_fallback (N : ℕ) (hN : 1 ≤ N) (p : String)
    (h1 : p ≠ "well") (h2 : p ≠ "harmonic") :
    build_2d_hamiltonian (N : ℤ) p = build_2d_hamiltonian (N : ℤ) "well" ∧
    (build_2d_hamiltonian (N : ℤ) p).isSome = true := by
  refine ⟨build_unknown _ h1 h2, ?_⟩
  rw [build_unknown _ h1 h2]
  exact build_isSome N hN "well"

/-- Witness for C7 at N = 3, kind "foo". -/
theorem C7_unknown_kind_fallback_witness :
    (1 ≤ 3 ∧ "foo" ≠ "well" ∧ "foo" ≠ "harmonic") ∧
    (build_2d_hamiltonian ((3 : ℕ) : ℤ) "foo" = build_2d_hamiltonian ((3 : ℕ) : ℤ) "well" ∧
     (build_2d_hamiltonian ((3 : ℕ) : ℤ) "foo").isSome = true) :=
  ⟨⟨by decide, by decide, by decide⟩,
    C7_unknown_kind_fallback 3 (by decide) "foo" (by decide) (by decide)⟩

theorem build_negative (N : ℤ) (hN : N < 0) (p : String) :
    build_2d_hamiltonian N p = some ⟨(N * N).toNat, fun _ _ => 0⟩ := by
  have ht : N.toNat = 0 := Int.toNat_of_nonpos (le_of_lt hN)
  simp only [build_2d_hamiltonian, if_neg (show ¬N = 0 by omega), ht,
    List.range_zero, List.foldl_nil]

/-- C6 (amended): the builder performs no validation of N.  For N = 0 it
fails (the grid-spacing computation `1. / float(N)` divides by zero), and
for every negative N it does not fail at all: it returns the
`(N*N) × (N*N)` all-zero matrix, since both loops run over an empty range. -/
theorem C6_no_validation (N : ℤ) (p : String) (hN : N ≤ 0) :
    (N = 0 → build_2d_hamiltonian N p = none) ∧
    (N < 0 → build_2d_hamiltonian N p = some ⟨(N * N).toNat, fun _ _ => 0⟩) := by
  constructor
  · intro h0
    simp [build_2d_hamiltonian, h0]
  · intro hneg
    exact build_negative N hneg p

/-- Witness for C6 (amended) at N = -2. -/
theorem C6_no_validation_witness :
    ((-2 : ℤ) ≤ 0) ∧
    (((-2 : ℤ) = 0 → build_2d_hamiltonian (-2) "well" = none) ∧
     ((-2 : ℤ) < 0 →
       build_2d_hamiltonian (-2) "well" = some ⟨((-2 : ℤ) * -2).toNat, fun _ _ => 0⟩)) :=
  ⟨by decide, C6_no_validation (-2) "well" (by decide)⟩

/-- Counterexample to C6 as stated: at the non-positive input N = -1 the
builder does not fail with any error — it returns a matrix. -/
theorem C6_counterexample : (build_2d_hamiltonian (-1) "well").isSome = true := by
  decide

/-- C10 (amended): for every negative N the builder returns the
`(N*N) × (N*N)` all-zero matrix without failing (empty loop ranges, no
validation); for N = 0, however, the computation `dx = 1. / float(N)`
fails with a division by zero before any matrix is produced. -/
theorem C10_negative_N (N : ℤ) (p : String) (hN : N < 0) :
    build_2d_hamiltonian N p = some ⟨(N * N).toNat, fun _ _ => 0⟩ ∧
    build_2d_hamiltonian 0 p = none := by
  refine ⟨build_negative N hN p, ?_⟩
  simp [build_2d_hamiltonian]

/-- Witness for C10 (amended) at N = -1, kind "harmonic". -/
theorem C10_negative_N_witness :
    ((-1 : ℤ) < 0) ∧
    (build_2d_hamiltonian (-1) "harmonic" = some ⟨((-1 : ℤ) * -1).toNat, fun _ _ => 0⟩ ∧
     build_2d_hamiltonian 0 "harmonic" = none) :=
  ⟨by decide, C10_negative_N (-1) "harmonic" (by decide)⟩

/-- Counterexample to C10 as stated: at N = 0 the builder does not return a
matrix at all (the dx computation divides by zero). -/
theorem C10_counterexample : build_2d_hamiltonian 0 "well" = none := by
  simp [build_2d_hamiltonian]

/-! ### Claim C8: row sums of the "well" matrix -/

theorem ite_chain_split {P1 P2 P3 P4 P5 : Prop}
    [Decidable P1] [Decidable P2] [Decidable P3] [Decidable P4] [Decidable P5]
    (v1 v2 v3 v4 v5 : ℚ)
    (h12 : ¬(P1 ∧ P2)) (h13 : ¬(P1 ∧ P3)) (h14 : ¬(P1 ∧ P4)) (h15 : ¬(P1 ∧ P5))
    (h23 : ¬(P2 ∧ P3)) (h24 : ¬(P2 ∧ P4)) (h25 : ¬(P2 ∧ P5))
    (h34 : ¬(P3 ∧ P4)) (h35 : ¬(P3 ∧ P5)) (h45 : ¬(P4 ∧ P5)) :
    (if P1 then v1 else if P2 then v2 else if P3 then v3 else if P4 then v4
      else if P5 then v5 else 0) =
    (if P1 then v1 else 0) + (if P2 then v2 else 0) + (if P3 then v3 else 0)
      + (if P4 then v4 else 0) + (if P5 then v5 else 0) := by
  by_cases h1 : P1
  · rw [if_pos h1, if_pos h1, if_neg (fun h => h12 ⟨h1, h⟩), if_neg (fun h => h13 ⟨h1, h⟩),
      if_neg (fun h => h14 ⟨h1, h⟩), if_neg (fun h => h15 ⟨h1, h⟩)]
    ring
  · rw [if_neg h1, if_neg h1]
    by_cases h2 : P2
    · rw [if_pos h2, if_pos h2, if_neg (fun h => h23 ⟨h2, h⟩),
        if_neg (fun h => h24 ⟨h2, h⟩), if_neg (fun h => h25 ⟨h2, h⟩)]
      ring
    · rw [if_neg h2, if_neg h2]
      by_cases h3 : P3
      · rw [if_pos h3, if_pos h3, if_neg (fun h => h34 ⟨h3, h⟩),
          if_neg (fun h => h35 ⟨h3, h⟩)]
        ring
      · rw [if_neg h3, if_neg h3]
        by_cases h4 : P4
        · rw [if_pos h4, if_pos h4, if_neg (fun h => h45 ⟨h4, h⟩)]
          ring
        · rw [if_neg h4, if_neg h4]
          by_cases h5 : P5
          · rw [if_pos h5]
            ring
          · rw [if_neg h5]
            ring

theorem sum_guard_ite (m : ℕ) (G : Prop) [Decidable G] (X : ℕ) (v : ℚ)
    (hX : G → X < m) :
    (∑ c ∈ Finset.range m, if G ∧ c = X then v else 0) = if G then v else 0 := by
  by_cases hG : G
  · simp only [hG, true_and, if_true]
    rw [Finset.sum_ite_eq' (Finset.range m) X (fun _ => v)]
    simp [hX hG]
  · simp [hG]

theorem Hclosed_well_decomp {N : ℕ} (hN : 1 ≤ N) {r : ℕ} (hr : r < N * N)
    (c : ℕ) :
    Hclosed N "well" r c =
      (if c = r then -4 * ((N : ℚ) * N) else 0)
      + (if 0 < r / N ∧ c = idx N (r / N - 1) (r % N) then (N : ℚ) * N else 0)
      + (if r / N + 1 < N ∧ c = idx N (r / N + 1) (r % N) then (N : ℚ) * N else 0)
      + (if 0 < r % N ∧ c = idx N (r / N) (r % N - 1) then (N : ℚ) * N else 0)
      + (if r % N + 1 < N ∧ c = idx N (r / N) (r % N + 1) then (N : ℚ) * N else 0) := by
  have hn0 : 0 < N := hN
  have hi : r / N < N := (Nat.div_lt_iff_lt_mul hn0).mpr hr
  have hj : r % N < N := Nat.mod_lt _ hn0
  have hrx : r = idx N (r / N) (r % N) := (idx_self N r).symm
  unfold Hclosed
  rw [if_pos hr,
    show V N (1 / (N : ℚ)) "well" (r / N) (r % N) = 0 from by simp [V], add_zero]
  apply ite_chain_split
  · rintro ⟨h1, hg, h2⟩
    obtain ⟨e1, -⟩ := idx_inj hj hj ((hrx ▸ h1.symm).trans h2)
    omega
  · rintro ⟨h1, hg, h2⟩
    obtain ⟨e1, -⟩ := idx_inj hj hj ((hrx ▸ h1.symm).trans h2)
    omega
  · rintro ⟨h1, hg, h2⟩
    obtain ⟨-, e2⟩ := idx_inj hj (by omega : r % N - 1 < N) ((hrx ▸ h1.symm).trans h2)
    omega
  · rintro ⟨h1, hg, h2⟩
    obtain ⟨-, e2⟩ := idx_inj hj (by omega : r % N + 1 < N) ((hrx ▸ h1.symm).trans h2)
    omega
  · rintro ⟨⟨hg1, h1⟩, hg2, h2⟩
    obtain ⟨e1, -⟩ := idx_inj hj hj (h1.symm.trans h2)
    omega
  · rintro ⟨⟨hg1, h1⟩, hg2, h2⟩
    obtain ⟨e1, -⟩ := idx_inj hj (by omega : r % N - 1 < N) (h1.symm.trans h2)
    omega
  · rintro ⟨⟨hg1, h1⟩, hg2, h2⟩
    obtain ⟨e1, -⟩ := idx_inj hj (by omega : r % N + 1 < N) (h1.symm.trans h2)
    omega
  · rintro ⟨⟨hg1, h1⟩, hg2, h2⟩
    obtain ⟨e1, -⟩ := idx_inj hj (by omega : r % N - 1 < N) (h1.symm.trans h2)
    omega
  · rintro ⟨⟨hg1, h1⟩, hg2, h2⟩
    obtain ⟨e1, -⟩ := idx_inj hj (by omega : r % N + 1 < N) (h1.symm.trans h2)
    omega
  · rintro ⟨⟨hg1, h1⟩, hg2, h2⟩
    obtain ⟨-, e2⟩ := idx_inj (by omega : r % N - 1 < N) (by omega : r % N + 1 < N)
      (h1.symm.trans h2)
    omega

/-- C8 (amended): for every N ≥ 1, each row `r` of the matrix returned by
`build_2d_hamiltonian(N, "well")` sums to `(k - 4) * N²` where `k` is the
number of in-bounds axis-aligned neighbors of the row's grid point; rows of
interior points (`k = 4`) therefore sum to `V(i, j) = 0`, while boundary
rows (`k < 4`) sum to the negative value `(k - 4) * N²`. -/
theorem C8_row_sums (N : ℕ) (hN : 1 ≤ N) (r : ℕ) (hr : r < N * N) :
    ∑ c ∈ Finset.range (N * N), mEntry (N : ℤ) "well" r c
      = ((neighborCount N r : ℚ) - 4) * (N : ℚ) ^ 2 := by
  have hNZ : (1 : ℤ) ≤ (N : ℤ) := by exact_mod_cast hN
  have hn0 : 0 < N := hN
  have hi : r / N < N := (Nat.div_lt_iff_lt_mul hn0).mpr hr
  have hj : r % N < N := Nat.mod_lt _ hn0
  have hrw : ∀ c, mEntry (N : ℤ) "well" r c = Hclosed N "well" r c := by
    intro c
    have h := entry_eq_Hclosed hNZ "well" r c
    rwa [Int.toNat_natCast] at h
  calc ∑ c ∈ Finset.range (N * N), mEntry (N : ℤ) "well" r c
      = ∑ c ∈ Finset.range (N * N),
          ((if c = r then -4 * ((N : ℚ) * N) else 0)
          + (if 0 < r / N ∧ c = idx N (r / N - 1) (r % N) then (N : ℚ) * N else 0)
          + (if r / N + 1 < N ∧ c = idx N (r / N + 1) (r % N) then (N : ℚ) * N else 0)
          + (if 0 < r % N ∧ c = idx N (r / N) (r % N - 1) then (N : ℚ) * N else 0)
          + (if r % N + 1 < N ∧ c = idx N (r / N) (r % N + 1) then (N : ℚ) * N else 0)) :=
        Finset.sum_congr rfl (fun c _ => by rw [hrw c, Hclosed_well_decomp hN hr c])
    _ = ((neighborCount N r : ℚ) - 4) * (N : ℚ) ^ 2 := by
        rw [Finset.sum_add_distrib, Finset.sum_add_distrib, Finset.sum_add_distrib,
          Finset.sum_add_distrib,
          Finset.sum_ite_eq' (Finset.range (N * N)) r (fun _ => -4 * ((N : ℚ) * N)),
          sum_guard_ite _ _ _ _ (fun _ => idx_lt (by omega) hj),
          sum_guard_ite _ _ _ _ (fun hg => idx_lt (by omega) hj),
          sum_guard_ite _ _ _ _ (fun _ => idx_lt hi (by omega)),
          sum_guard_ite _ _ _ _ (fun hg => idx_lt hi (by omega))]
        simp only [Finset.mem_range, hr, if_true, neighborCount]
        push_cast [apply_ite (Nat.cast : ℕ → ℚ)]
        split_ifs <;> ring

/-- Witness for C8 (amended) at N = 2, r = 0 (a corner row: two neighbors,
so the row sums to (2 - 4) * 4 = -8). -/
theorem C8_row_sums_witness :
    (1 ≤ 2 ∧ 0 < 2 * 2) ∧
    ∑ c ∈ Finset.range (2 * 2), mEntry ((2 : ℕ) : ℤ) "well" 0 c
      = ((neighborCount 2 0 : ℚ) - 4) * ((2 : ℕ) : ℚ) ^ 2 :=
  ⟨⟨by decide, by decide⟩, C8_row_sums 2 (by decide) 0 (by decide)⟩

/-- Counterexample to C8 as stated: for N = 1 the single row of
`build(1, "well")` sums to -4, not to V(0,0) = 0. -/
theorem C8_counterexample :
    (∑ c ∈ Finset.range (1 * 1), mEntry ((1 : ℕ) : ℤ) "well" 0 c) = -4 ∧
    ((-4 : ℚ) ≠ 0) := by
  constructor
  · have h := @entry_idx_eq ((1 : ℕ) : ℤ) (by norm_num) "well" 0 0
      (by norm_num) (by norm_num) 0
    norm_num [idx, V] at h
    rw [show (1 * 1 : ℕ) = 1 by norm_num, Finset.sum_range_one]
    exact_mod_cast h
  · norm_num

/-! ### Claims C4, C5, C9: sorting and truncation in `solve_eigen` -/

theorem argsort_perm (vals : List ℚ) :
    (argsort vals).Perm (List.range vals.length) :=
  List.mergeSort_perm _ _

theorem argsort_sorted (vals : List ℚ) :
    List.Pairwise (fun a b => vals.getD a 0 ≤ vals.getD b 0) (argsort vals) := by
  have h := @List.sorted_mergeSort ℕ
    (fun a b => decide (vals.getD a 0 ≤ vals.getD b 0))
    (by
      intro a b c hab hbc
      simp only [decide_eq_true_eq] at *
      exact le_trans hab hbc)
    (by
      intro a b
      simp only [Bool.or_eq_true, decide_eq_true_eq]
      exact le_total _ _)
    (List.range vals.length)
  exact h.imp (by intro a b hb; simpa using hb)

theorem argsort_nodup (vals : List ℚ) : (argsort vals).Nodup :=
  (argsort_perm vals).nodup_iff.mpr (List.nodup_range _)

theorem argsort_length (vals : List ℚ) :
    (argsort vals).length = vals.length := by
  rw [(argsort_perm vals).length_eq, List.length_range]

theorem argsort_mem_lt (vals : List ℚ) {a : ℕ} (h : a ∈ argsort vals) :
    a < vals.length :=
  List.mem_range.mp ((argsort_perm vals).mem_iff.mp h)

theorem map_getD_range (l : List ℚ) :
    (List.range l.length).map (fun a => l.getD a 0) = l := by
  apply List.ext_getElem (by simp)
  intro i h1 h2
  simp only [List.getElem_map, List.getElem_range]
  exact List.getD_eq_getElem l 0 h2

theorem vals_sorted_pairwise (vals : List ℚ) :
    List.Pairwise (· ≤ ·) (vals_sorted vals) :=
  List.Pairwise.map _ (fun _ _ h => h) (argsort_sorted vals)

theorem vals_sorted_perm (vals : List ℚ) : (vals_sorted vals).Perm vals := by
  have h := (argsort_perm vals).map (fun a => vals.getD a 0)
  rwa [map_getD_range] at h

theorem vals_sorted_length (vals : List ℚ) :
    (vals_sorted vals).length = vals.length := by
  simp [vals_sorted, argsort_length]

theorem vecs_sorted_length (vals : List ℚ) (vecs : List (List ℚ)) :
    (vecs_sorted vals vecs).length = vals.length := by
  simp [vecs_sorted, argsort_length]

theorem solve_eigen_eq (N : ℕ) (hN : 1 ≤ N) (p : String) (n_eigs : Option ℕ)
    (vals : List ℚ) (vecs : List (List ℚ)) :
    solve_eigen (N : ℤ) p n_eigs vals vecs =
      match n_eigs with
      | none => some (vals_sorted vals, vecs_sorted vals vecs)
      | some m => some ((vals_sorted vals).take m, (vecs_sorted vals vecs).take m) := by
  obtain ⟨H, hH⟩ := Option.isSome_iff_exists.mp (build_isSome N hN p)
  unfold solve_eigen
  rw [hH]

theorem pairwise_take_drop {l : List ℚ} (h : List.Pairwise (· ≤ ·) l) (m : ℕ) :
    ∀ x ∈ l.take m, ∀ y ∈ l.drop m, x ≤ y := by
  rw [← List.take_append_drop m l] at h
  exact (List.pairwise_append.mp h).2.2

theorem drop_take_length (l : List ℚ) (m : ℕ) :
    l.drop ((l.take m).length) = l.drop m := by
  rw [List.length_take]
  rcases le_total m l.length with h | h
  · rw [min_eq_left h]
  · rw [min_eq_right h, List.drop_length, List.drop_eq_nil_of_le h]

/-- C4: for every N ≥ 1, every potential kind and every n_eigs, and for any
order in which the external eigensolver delegate returns the N²
eigenvalues and eigenvector columns, `solve_eigen` succeeds and returns
eigenvalues sorted ascending, with the eigenvectors carried along under the
same index permutation, and when truncated every returned eigenvalue is
≤ every eigenvalue of the sorted spectrum that is not returned. -/
theorem C4_sorted_eigenpairs (N : ℕ) (hN : 1 ≤ N) (p : String)
    (n_eigs : Option ℕ) (vals : List ℚ) (vecs : List (List ℚ))
    (hlv : vals.length = N * N) (hlw : vecs.length = N * N) :
    ∃ svals svecs, solve_eigen (N : ℤ) p n_eigs vals vecs = some (svals, svecs) ∧
      List.Pairwise (· ≤ ·) svals ∧
      (∃ is : List ℕ, is.Nodup ∧ (∀ a ∈ is, a < vals.length) ∧
        svals = is.map (fun a => vals.getD a 0) ∧
        svecs = is.map (fun a => vecs.getD a [])) ∧
      (∀ x ∈ svals, ∀ y ∈ (vals_sorted vals).drop svals.length, x ≤ y) := by
  rw [solve_eigen_eq N hN]
  match n_eigs with
  | none =>
    refine ⟨vals_sorted vals, vecs_sorted vals vecs, rfl,
      vals_sorted_pairwise vals,
      ⟨argsort vals, argsort_nodup vals, fun a ha => argsort_mem_lt vals ha,
        rfl, rfl⟩, ?_⟩
    intro x hx y hy
    rw [List.drop_length] at hy
    exact absurd hy (List.not_mem_nil y)
  | some m =>
    refine ⟨(vals_sorted vals).take m, (vecs_sorted vals vecs).take m, rfl,
      List.Pairwise.sublist (List.take_sublist m _) (vals_sorted_pairwise vals),
      ⟨(argsort vals).take m,
        List.Nodup.sublist (List.take_sublist m _) (argsort_nodup vals),
        (fun a ha => argsort_mem_lt vals ((List.take_sublist m _).subset ha)),
        (List.map_take _ _ _).symm, (List.map_take _ _ _).symm⟩, ?_⟩
    intro x hx y hy
    rw [drop_take_length] at hy
    exact pairwise_take_drop (vals_sorted_pairwise vals) m x hx y hy

/-- Witness for C4 at N = 1, kind "well", full spectrum, delegate output
vals = [3], vecs = [[1]]. -/
theorem C4_sorted_eigenpairs_witness :
    (1 ≤ 1 ∧ ([(3 : ℚ)] : List ℚ).length = 1 * 1 ∧
      ([[(1 : ℚ)]] : List (List ℚ)).length = 1 * 1) ∧
    (∃ svals svecs, solve_eigen ((1 : ℕ) : ℤ) "well" none [(3 : ℚ)] [[(1 : ℚ)]]
        = some (svals, svecs) ∧
      List.Pairwise (· ≤ ·) svals ∧
      (∃ is : List ℕ, is.Nodup ∧ (∀ a ∈ is, a < ([(3 : ℚ)] : List ℚ).length) ∧
        svals = is.map (fun a => ([(3 : ℚ)] : List ℚ).getD a 0) ∧
        svecs = is.map (fun a => ([[(1 : ℚ)]] : List (List ℚ)).getD a [])) ∧
      (∀ x ∈ svals, ∀ y ∈ (vals_sorted [(3 : ℚ)]).drop svals.length, x ≤ y)) :=
  ⟨⟨by decide, by simp, by simp⟩,
    C4_sorted_eigenpairs 1 (by decide) "well" none [(3 : ℚ)] [[(1 : ℚ)]]
      (by simp) (by simp)⟩

/-- C5: for every N ≥ 1, if `n_eigs = m` with `m ≤ N²` is given,
`solve_eigen` returns exactly m eigenpairs, namely the first m of the
sorted sequence; if `n_eigs` is unspecified it returns the full sorted
spectrum of all N² eigenpairs (a sorted permutation of the delegate's
output). -/
theorem C5_truncation (N : ℕ) (hN : 1 ≤ N) (p : String)
    (vals : List ℚ) (vecs : List (List ℚ))
    (hlv : vals.length = N * N) (hlw : vecs.length = N * N) :
    (∀ m : ℕ, m ≤ N * N →
      solve_eigen (N : ℤ) p (some m) vals vecs
        = some ((vals_sorted vals).take m, (vecs_sorted vals vecs).take m) ∧
      ((vals_sorted vals).take m).length = m ∧
      ((vecs_sorted vals vecs).take m).length = m) ∧
    (solve_eigen (N : ℤ) p none vals vecs
        = some (vals_sorted vals, vecs_sorted vals vecs) ∧
      (vals_sorted vals).length = N * N ∧
      (vecs_sorted vals vecs).length = N * N ∧
      (vals_sorted vals).Perm vals ∧
      List.Pairwise (· ≤ ·) (vals_sorted vals)) := by
  constructor
  · intro m hm
    refine ⟨solve_eigen_eq N hN p (some m) vals vecs, ?_, ?_⟩
    · rw [List.length_take, vals_sorted_length, hlv]
      exact min_eq_left hm
    · rw [List.length_take, vecs_sorted_length, hlv]
      exact min_eq_left hm
  · exact ⟨solve_eigen_eq N hN p none vals vecs,
      by rw [vals_sorted_length, hlv],
      by rw [vecs_sorted_length, hlv],
      vals_sorted_perm vals, vals_sorted_pairwise vals⟩

/-- Witness for C5 at N = 1, kind "well", delegate output vals = [5],
vecs = [[1]]. -/
theorem C5_truncation_witness :
    (1 ≤ 1 ∧ ([(5 : ℚ)] : List ℚ).length = 1 * 1 ∧
      ([[(1 : ℚ)]] : List (List ℚ)).length = 1 * 1) ∧
    ((∀ m : ℕ, m ≤ 1 * 1 →
      solve_eigen ((1 : ℕ) : ℤ) "well" (some m) [(5 : ℚ)] [[(1 : ℚ)]]
        = some ((vals_sorted [(5 : ℚ)]).take m,
                (vecs_sorted [(5 : ℚ)] [[(1 : ℚ)]]).take m) ∧
      ((vals_sorted [(5 : ℚ)]).take m).length = m ∧
      ((vecs_sorted [(5 : ℚ)] [[(1 : ℚ)]]).take m).length = m) ∧
    (solve_eigen ((1 : ℕ) : ℤ) "well" none [(5 : ℚ)] [[(1 : ℚ)]]
        = some (vals_sorted [(5 : ℚ)], vecs_sorted [(5 : ℚ)] [[(1 : ℚ)]]) ∧
      (vals_sorted [(5 : ℚ)]).length = 1 * 1 ∧
      (vecs_sorted [(5 : ℚ)] [[(1 : ℚ)]]).length = 1 * 1 ∧
      (vals_sorted [(5 : ℚ)]).Perm [(5 : ℚ)] ∧
      List.Pairwise (· ≤ ·) (vals_sorted [(5 : ℚ)]))) :=
  ⟨⟨by decide, by simp, by simp⟩,
    C5_truncation 1 (by decide) "well" [(5 : ℚ)] [[(1 : ℚ)]] (by simp) (by simp)⟩

/-- C9: for every N ≥ 1 and every n_eigs strictly greater than N²,
`solve_eigen` does not fail: the slice `[:n_eigs]` silently truncates, so
exactly the full N² sorted eigenpairs are returned. -/
theorem C9_overlarge_neigs (N : ℕ) (hN : 1 ≤ N) (p : String)
    (vals : List ℚ) (vecs : List (List ℚ))
    (hlv : vals.length = N * N) (hlw : vecs.length = N * N)
    (m : ℕ) (hm : N * N < m) :
    solve_eigen (N : ℤ) p (some m) vals vecs
      = some (vals_sorted vals, vecs_sorted vals vecs) ∧
    (vals_sorted vals).length = N * N ∧
    (vecs_sorted vals vecs).length = N * N := by
  have h1 : (vals_sorted vals).take m = vals_sorted vals :=
    List.take_of_length_le (by rw [vals_sorted_length, hlv]; omega)
  have h2 : (vecs_sorted vals vecs).take m = vecs_sorted vals vecs :=
    List.take_of_length_le (by rw [vecs_sorted_length, hlv]; omega)
  refine ⟨?_, by rw [vals_sorted_length, hlv], by rw [vecs_sorted_length, hlv]⟩
  rw [solve_eigen_eq N hN]
  show some ((vals_sorted vals).take m, (vecs_sorted vals vecs).take m) = _
  rw [h1, h2]

/-- Witness for C9 at N = 1, n_eigs = 2 > 1 = N², delegate output
vals = [7], vecs = [[2]]. -/
theorem C9_overlarge_neigs_witness :
    (1 ≤ 1 ∧ ([(7 : ℚ)] : List ℚ).length = 1 * 1 ∧
      ([[(2 : ℚ)]] : List (List ℚ)).length = 1 * 1 ∧ 1 * 1 < 2) ∧
    (solve_eigen ((1 : ℕ) : ℤ) "well" (some 2) [(7 : ℚ)] [[(2 : ℚ)]]
        = some (vals_sorted [(7 : ℚ)], vecs_sorted [(7 : ℚ)] [[(2 : ℚ)]]) ∧
      (vals_sorted [(7 : ℚ)]).length = 1 * 1 ∧
      (vecs_sorted [(7 : ℚ)] [[(2 : ℚ)]]).length = 1 * 1) :=
  ⟨⟨by decide, by simp, by simp, by decide⟩,
    C9_overlarge_neigs 1 (by decide) "well" [(7 : ℚ)] [[(2 : ℚ)]]
      (by simp) (by simp) 2 (by decide)⟩

end Eigen
